import Mathlib

/-!
Verification of `transcribe.py` (whisper-transcriber): a shallow embedding of
the program's pure logic — timestamp formatting, subtitle rendering, text
chunking, folder-name sanitization, API-key management, output-format parsing
and the per-file output-routing policy of `main` — together with theorems
checking the natural-language specification against this embedding.

Modelling conventions:
* Python strings are Lean `String`s; `str.strip()` is `pyStrip` (ASCII
  whitespace, as Python strips on the inputs that occur here).
* Float second counts are embedded as `ℚ`; `int(x)` on a non-negative value
  is `(⌊x⌋).toNat` (truncation towards zero coincides with floor there).
* File writes are modelled by returning the written content (the writers) or
  by an event list (`Ev`) recording which files `main` writes.
* The interactive prompt loop and the translation network call are modelled
  by explicit inputs: a list of entered strings, and an `Except` value giving
  the call's outcome (`.error` models a raised exception, caught in `main`).
-/

/-- Characters removed by Python `str.strip()` (ASCII whitespace). -/
def pyWhitespace (c : Char) : Bool :=
  c == ' ' || c == '\t' || c == '\n' || c == '\r' || c == '\x0b' || c == '\x0c'

/-- Embedding of Python `str.strip()`. -/
def pyStrip (s : String) : String :=
  String.mk (((s.data.dropWhile pyWhitespace).reverse.dropWhile pyWhitespace).reverse)

/-- Embedding of Python `str.lower()` (ASCII case folding suffices here). -/
def pyLower (s : String) : String :=
  String.mk (s.data.map Char.toLower)

/-- Embedding of the f-string `f"{n:0wd}"` for a non-negative `n`:
the decimal digits of `n`, left-padded with zeros to width `w`. -/
def zeroPad (w : Nat) (n : Nat) : String :=
  let s := Nat.repr n
  String.mk (List.replicate (w - s.length) '0') ++ s

/-- The set `SUPPORTED_LANGS` of transcribe.py (line 29). -/
def SUPPORTED_LANGS : List String := ["en", "zh", "hi", "es", "ar", "it"]

/-- A character matched by the regex class `[<>:"/\\|?*\x00-\x1F]` in
`sanitize_folder_name` (transcribe.py line 33). -/
def illegalChar (c : Char) : Bool :=
  c == '<' || c == '>' || c == ':' || c == '"' || c == '/' || c == '\\' ||
    c == '|' || c == '?' || c == '*' || decide (c.toNat ≤ 0x1F)

/-- Embedding of `sanitize_folder_name` (transcribe.py lines 32-33):
`re.sub` replaces every matched character with an underscore, and the
Python `or "output"` yields the fallback exactly when the substituted
string is empty (each substitution preserves one character, so exactly
when the stripped input is empty). -/
def sanitize_folder_name (name : String) : String :=
  let t := String.mk ((pyStrip name).data.map (fun c => if illegalChar c then '_' else c))
  if t = "" then "output" else t

/-- Embedding of `ts_srt` (transcribe.py lines 35-40). -/
def ts_srt (seconds : ℚ) : String :=
  let t := max 0 seconds
  let total : ℕ := (⌊t⌋).toNat
  let h := total / 3600
  let m := total % 3600 / 60
  let s := total % 60
  let ms : ℕ := (⌊(t - (total : ℚ)) * 1000⌋).toNat
  zeroPad 2 h ++ ":" ++ zeroPad 2 m ++ ":" ++ zeroPad 2 s ++ "," ++ zeroPad 3 ms

/-- Embedding of `ts_vtt` (transcribe.py lines 42-47). -/
def ts_vtt (seconds : ℚ) : String :=
  let t := max 0 seconds
  let total : ℕ := (⌊t⌋).toNat
  let h := total / 3600
  let m := total % 3600 / 60
  let s := total % 60
  let ms : ℕ := (⌊(t - (total : ℚ)) * 1000⌋).toNat
  zeroPad 2 h ++ ":" ++ zeroPad 2 m ++ ":" ++ zeroPad 2 s ++ "." ++ zeroPad 3 ms

/-- A Whisper segment: the dict `{'start': .., 'end': .., 'text': ..}`.
The source key `end` is a Lean keyword, hence the field name `stop`. -/
structure Seg where
  start : ℚ
  stop : ℚ
  text : String
deriving DecidableEq

/-- Content written by `write_txt` (transcribe.py lines 49-50). -/
def write_txt_content (text : String) : String :=
  pyStrip text ++ "\n"

/-- Content written by `write_srt` (transcribe.py lines 52-56):
1-based numbering from `enumerate(segments, start=1)`, blocks joined by
`"\n"`, outer strip, one trailing newline. -/
def write_srt_content (segments : List Seg) : String :=
  let lines := segments.enum.map (fun p =>
    Nat.repr (p.1 + 1) ++ "\n" ++ ts_srt p.2.start ++ " --> " ++ ts_srt p.2.stop ++
      "\n" ++ pyStrip p.2.text ++ "\n")
  pyStrip (String.intercalate "\n" lines) ++ "\n"

/-- Content written by `write_vtt` (transcribe.py lines 58-62). -/
def write_vtt_content (segments : List Seg) : String :=
  let lines := "WEBVTT\n" :: segments.map (fun seg =>
    ts_vtt seg.start ++ " --> " ++ ts_vtt seg.stop ++ "\n" ++ pyStrip seg.text ++ "\n")
  pyStrip (String.intercalate "\n" lines) ++ "\n"

/-- Embedding of Python `text.replace("\r\n", "\n")` at character level:
a left-to-right, non-overlapping replacement of CRLF pairs. -/
def crlfToLf : List Char → List Char
  | [] => []
  | [c] => [c]
  | c1 :: c2 :: rest =>
    if c1 = '\r' ∧ c2 = '\n' then '\n' :: crlfToLf rest
    else c1 :: crlfToLf (c2 :: rest)

/-- Embedding of Python `str.split(sep)` for a one-character separator:
no collapsing of adjacent separators; the empty string yields `[[]]`. -/
def splitChar (sep : Char) : List Char → List (List Char)
  | [] => [[]]
  | c :: rest =>
    if c = sep then [] :: splitChar sep rest
    else
      match splitChar sep rest with
      | [] => [[c]]
      | l :: ls => (c :: l) :: ls

/-- Embedding of Python `"\n".join` at character level. -/
def joinNL : List (List Char) → List Char
  | [] => []
  | [l] => l
  | l :: ls => l ++ '\n' :: joinNL ls

/-- The accumulator loop of `chunk_text` (transcribe.py lines 67-77):
`current` is the list of lines of the chunk being built and `count` the
running character budget; a line is flushed to a fresh chunk when adding
it would exceed `max_chars` and the current chunk is non-empty. -/
def chunkCore (max_chars : Nat) :
    List (List Char) → List (List Char) → Nat → List (List Char)
  | [], current, _ => if current = [] then [] else [joinNL current]
  | line :: rest, current, count =>
    if max_chars < count + line.length + 1 ∧ current ≠ [] then
      joinNL current :: chunkCore max_chars rest [line] (line.length + 1)
    else
      chunkCore max_chars rest (current ++ [line]) (count + line.length + 1)

/-- Embedding of `chunk_text` (transcribe.py lines 64-78); the source's
default for `max_chars` is 8000. -/
def chunk_text (text : String) (max_chars : Nat) : List String :=
  (chunkCore max_chars (splitChar '\n' (crlfToLf text.data)) [] 0).map String.mk

/-- Embedding of the key-shape check `looks_valid` inside
`ensure_openai_api_key` (transcribe.py lines 87-88): Python
`bool(k) and k.startswith("sk-")`. -/
def looks_valid (k : String) : Bool :=
  (k != "") && ("sk-".data.isPrefixOf k.data)

/-- The `while True` prompt loop of `ensure_openai_api_key` (transcribe.py
lines 92-100), modelled on an explicit list of entered strings; `none`
models the loop never terminating because no conforming value is entered. -/
def promptLoop : List String → Option String
  | [] => none
  | entry :: rest =>
    let entered := pyStrip entry
    if looks_valid entered then some entered else promptLoop rest

/-- Embedding of `ensure_openai_api_key` (transcribe.py lines 80-101).
`keyFile` is the content of `openai_api_key.txt` if the file exists;
`entries` the interactive inputs. The result pairs the returned key with
the key file's content after the call (`keyFile` itself on the no-write
path, the newly saved key on the prompt path). -/
def ensure_openai_api_key (keyFile : Option String) (entries : List String) :
    Option (String × Option String) :=
  let key := match keyFile with
             | some content => pyStrip content
             | none => ""
  if looks_valid key then some (key, keyFile)
  else
    match promptLoop entries with
    | some k => some (k, some k)
    | none => none

/-- Embedding of the `targets` computation in `main` (transcribe.py lines
160-162): split the `--outputs` value on commas, strip, drop empties,
lowercase, intersect with `{txt, srt, vtt}` (kept in canonical order as a
list model of the Python set), and fall back to `["txt"]` when empty. -/
def parse_outputs (outputs : String) : List String :=
  let requested :=
    ((((splitChar ',' outputs.data).map (fun l => pyStrip (String.mk l))).filter
        (fun t => t != "")).map pyLower)
  let inter := ["txt", "srt", "vtt"].filter (fun v => requested.contains v)
  if inter = [] then ["txt"] else inter

/-- An observable action of `main`'s per-file loop: a file write (filename
within the per-input output directory, plus format tag), one of the two
logged error kinds, or the final `[DONE]` message. -/
inductive Ev where
  | write (fname : String) (fmt : String) : Ev
  | errFileNotFound (stem : String) : Ev
  | errTranslate (msg : String) : Ev
  | done : Ev
deriving DecidableEq

deriving instance DecidableEq for Except

/-- One input path of `main`: its filename stem, whether the file exists,
and the outcome of `ai_translate_english_to_target` if step 2 reaches it
(`.error` models the call raising an exception). -/
structure InputFile where
  stem : String
  present : Bool
  transResult : Except String String
deriving DecidableEq

/-- Embedding of one iteration of the file loop in `main` (transcribe.py
lines 164-225): mode selection, step-1 writes, and the guarded step-2
translation with its try/except. -/
def processFile (in_lang out_lang : String) (targets : List String)
    (f : InputFile) : List Ev :=
  if f.present = false then [Ev.errFileNotFound f.stem]
  else
    let name := sanitize_folder_name f.stem
    let mode := if out_lang = in_lang then "transcribe" else "translate"
    if mode = "transcribe" then
      (if "txt" ∈ targets then [Ev.write (name ++ " [" ++ in_lang ++ "].txt") "txt"] else []) ++
      (if "srt" ∈ targets then [Ev.write (name ++ ".srt") "srt"] else []) ++
      (if "vtt" ∈ targets then [Ev.write (name ++ ".vtt") "vtt"] else [])
    else
      ((if "txt" ∈ targets then [Ev.write (name ++ " [eng].txt") "txt"] else []) ++
       (if "srt" ∈ targets then [Ev.write (name ++ " [eng].srt") "srt"] else []) ++
       (if "vtt" ∈ targets then [Ev.write (name ++ " [eng].vtt") "vtt"] else [])) ++
      (if out_lang ≠ "en" ∧ out_lang ≠ in_lang then
        match f.transResult with
        | Except.ok _ => [Ev.write (name ++ " [" ++ out_lang ++ "].txt") "txt"]
        | Except.error e => [Ev.errTranslate e]
      else [])

/-- Embedding of `main`'s whole file loop followed by the final `[DONE]`
message (transcribe.py lines 164-227). -/
def mainRun (in_lang out_lang : String) (targets : List String)
    (files : List InputFile) : List Ev :=
  (files.map (processFile in_lang out_lang targets)).flatten ++ [Ev.done]

/-! ### General helper lemmas -/

theorem mk_eq_empty_iff (l : List Char) : String.mk l = "" ↔ l = [] := by
  constructor
  · intro h
    have := congrArg String.data h
    simpa using this
  · intro h
    rw [h]

/-! ### Claim C6: sanitization -/

/-- Claim C6, counterexample: the input `"???"` consists solely of illegal
filesystem characters, yet `sanitize_folder_name` returns `"___"`, not the
fixed default folder name `"output"`. -/
theorem claim_C6_counterexample :
    (∀ c ∈ "???".data, illegalChar c = true) ∧
      sanitize_folder_name "???" = "___" ∧ sanitize_folder_name "???" ≠ "output" := by
  decide

/-- Claim C6 as amended: `sanitize_folder_name` replaces every illegal
character of the stripped input with an underscore; the fixed default
`"output"` is produced when the stripped input is empty (an all-illegal
input of non-whitespace characters instead yields all underscores). -/
theorem claim_C6_sanitize (name : String) :
    (pyStrip name = "" → sanitize_folder_name name = "output") ∧
    (pyStrip name ≠ "" →
      (sanitize_folder_name name).data =
        (pyStrip name).data.map (fun c => if illegalChar c then '_' else c)) := by
  constructor
  · intro h
    unfold sanitize_folder_name
    rw [h]
    decide
  · intro h
    unfold sanitize_folder_name
    have hd : (pyStrip name).data ≠ [] := by
      intro hnil
      exact h (String.ext hnil)
    have hne : String.mk ((pyStrip name).data.map (fun c => if illegalChar c then '_' else c)) ≠ "" := by
      intro he
      exact hd (List.map_eq_nil_iff.mp ((mk_eq_empty_iff _).mp he))
    rw [if_neg hne]

/-- Claim C6 witness: concrete instances of both branches. -/
theorem claim_C6_sanitize_witness :
    (pyStrip "  " = "" ∧ sanitize_folder_name "  " = "output") ∧
    (pyStrip "a:b?" ≠ "" ∧
      (sanitize_folder_name "a:b?").data =
        (pyStrip "a:b?").data.map (fun c => if illegalChar c then '_' else c)) :=
  ⟨⟨by decide, (claim_C6_sanitize "  ").1 (by decide)⟩,
   ⟨by decide, (claim_C6_sanitize "a:b?").2 (by decide)⟩⟩

/-! ### Claim C9: API key file preservation -/

/-- Claim C9: when the key file exists and its stripped content starts with
`sk-`, `ensure_openai_api_key` returns that stripped content and leaves the
file content untouched (the no-write path). -/
theorem claim_C9_key_preserved (content : String) (entries : List String)
    (h : "sk-".data.isPrefixOf (pyStrip content).data = true) :
    ensure_openai_api_key (some content) entries = some (pyStrip content, some content) := by
  have hne : (pyStrip content != "") = true := by
    rcases hd : (pyStrip content).data with _ | ⟨c, cs⟩
    · rw [hd] at h
      simp [List.isPrefixOf] at h
    · have h0 : pyStrip content ≠ "" := by
        intro he
        rw [he] at hd
        exact absurd (hd : ([] : List Char) = c :: cs) (by simp)
      exact bne_iff_ne.mpr h0
  have hk : looks_valid (pyStrip content) = true := by
    unfold looks_valid
    rw [hne, h]
    rfl
  unfold ensure_openai_api_key
  simp only [hk, if_pos]

/-- Claim C9 witness: a stored key `" sk-abc \n"` is returned stripped and
the file content is unchanged, even though other entries queue at the
prompt. -/
theorem claim_C9_key_preserved_witness :
    ("sk-".data.isPrefixOf (pyStrip " sk-abc \n").data = true) ∧
      ensure_openai_api_key (some " sk-abc \n") ["sk-other"] =
        some (pyStrip " sk-abc \n", some " sk-abc \n") :=
  ⟨by decide, claim_C9_key_preserved " sk-abc \n" ["sk-other"] (by decide)⟩

/-! ### Claim C10: implicit output-format fallback -/

/-- Claim C10: when no comma-separated token of `--outputs` normalizes to a
recognized format, the computed target list silently falls back to
`["txt"]`, and a text output is then written for every present input in
every mode. -/
theorem claim_C10_outputs_fallback (outputs : String)
    (h : ∀ v ∈ (((splitChar ',' outputs.data).map
        (fun l => pyStrip (String.mk l))).filter (fun t => t != "")).map pyLower,
      v ∉ (["txt", "srt", "vtt"] : List String)) :
    parse_outputs outputs = ["txt"] ∧
    ∀ (in_lang out_lang : String) (f : InputFile), f.present = true →
      ∃ fname, Ev.write fname "txt" ∈ processFile in_lang out_lang (parse_outputs outputs) f := by
  have hfil : (["txt", "srt", "vtt"].filter (fun v =>
      ((((splitChar ',' outputs.data).map (fun l => pyStrip (String.mk l))).filter
        (fun t => t != "")).map pyLower).contains v)) = [] := by
    rw [List.filter_eq_nil_iff]
    intro v hv hc
    exact h v (List.elem_iff.mp hc) hv
  have hp : parse_outputs outputs = ["txt"] := by
    simp only [parse_outputs]
    rw [hfil]
    rfl
  refine ⟨hp, ?_⟩
  intro in_lang out_lang f hf
  rw [hp]
  unfold processFile
  rw [hf]
  by_cases hmode : out_lang = in_lang
  · refine ⟨sanitize_folder_name f.stem ++ " [" ++ in_lang ++ "].txt", ?_⟩
    simp [hmode]
  · refine ⟨sanitize_folder_name f.stem ++ " [eng].txt", ?_⟩
    simp [hmode]

/-- Claim C10 witness: `--outputs "foo, ,bar"` falls back to `["txt"]` and
a text file is still written for a present input. -/
theorem claim_C10_outputs_fallback_witness :
    parse_outputs "foo, ,bar" = ["txt"] ∧
    ∃ fname, Ev.write fname "txt" ∈
      processFile "it" "it" (parse_outputs "foo, ,bar") ⟨"x", true, Except.ok "t"⟩ := by
  have h := claim_C10_outputs_fallback "foo, ,bar" (by decide)
  exact ⟨h.1, h.2 "it" "it" ⟨"x", true, Except.ok "t"⟩ rfl⟩

/-! ### Timestamp evaluation helper -/

theorem ts_srt_eval (q : ℚ) (total ms : ℕ) (h0 : 0 ≤ q)
    (h1 : ⌊q⌋ = (total : ℤ)) (h2 : ⌊(q - (total : ℚ)) * 1000⌋ = (ms : ℤ)) :
    ts_srt q = zeroPad 2 (total / 3600) ++ ":" ++ zeroPad 2 (total % 3600 / 60) ++ ":" ++
      zeroPad 2 (total % 60) ++ "," ++ zeroPad 3 ms := by
  simp only [ts_srt]
  rw [max_eq_right h0, h1, Int.toNat_natCast, h2, Int.toNat_natCast]

theorem ts_srt_at_zero : ts_srt 0 = "00:00:00,000" := by
  have h := ts_srt_eval 0 0 0 le_rfl (by norm_num) (by norm_num)
  rw [h]
  rfl

theorem ts_srt_at_one : ts_srt 1 = "00:00:01,000" := by
  have h := ts_srt_eval 1 1 0 (by norm_num) (by norm_num) (by norm_num)
  rw [h]
  rfl

theorem ts_srt_at_5half : ts_srt (5/2) = "00:00:02,500" := by
  have h1 : (⌊(5/2 : ℚ)⌋) = ((2:ℕ) : ℤ) := by
    rw [Int.floor_eq_iff]; norm_num
  have h2 : (⌊((5:ℚ)/2 - ((2:ℕ) : ℚ)) * 1000⌋) = ((500:ℕ) : ℤ) := by
    rw [Int.floor_eq_iff]; norm_num
  have h := ts_srt_eval (5/2) 2 500 (by norm_num) h1 h2
  rw [h]
  rfl

/-! ### Claim C4: SRT writer exact output -/

/-- Claim C4: on the two-segment list `[{0,1,"a"},{1,2.5,"b"}]` the SRT
writer produces exactly the expected document: 1-based numbering, a blank
line between blocks, one trailing newline. -/
theorem claim_C4_write_srt_exact :
    write_srt_content [⟨0, 1, "a"⟩, ⟨1, 5/2, "b"⟩] =
      "1\n00:00:00,000 --> 00:00:01,000\na\n\n2\n00:00:01,000 --> 00:00:02,500\nb\n" := by
  simp only [write_srt_content, List.enum, List.enumFrom, List.map, ts_srt_at_zero,
    ts_srt_at_one, ts_srt_at_5half]
  rfl

/-! ### Chunking lemmas -/

theorem joinNL_cons (x : List Char) (ls : List (List Char)) (h : ls ≠ []) :
    joinNL (x :: ls) = x ++ '\n' :: joinNL ls := by
  cases ls with
  | nil => exact absurd rfl h
  | cons y ys => rfl

theorem joinNL_append (xs ys : List (List Char)) (hx : xs ≠ []) (hy : ys ≠ []) :
    joinNL (xs ++ ys) = joinNL xs ++ '\n' :: joinNL ys := by
  induction xs with
  | nil => exact absurd rfl hx
  | cons a as ih =>
    cases as with
    | nil =>
      rw [List.singleton_append, joinNL_cons a ys hy]
      rfl
    | cons b bs =>
      rw [List.cons_append, joinNL_cons a ((b :: bs) ++ ys) (by simp),
        joinNL_cons a (b :: bs) (by simp), ih (by simp)]
      simp

theorem splitChar_ne_nil (sep : Char) (l : List Char) : splitChar sep l ≠ [] := by
  induction l with
  | nil => simp [splitChar]
  | cons c rest ih =>
    simp only [splitChar]
    by_cases h : c = sep
    · simp [h]
    · rw [if_neg h]
      rcases hs : splitChar sep rest with _ | ⟨x, xs⟩ <;> simp

theorem splitChar_not_mem (sep : Char) (l : List Char) :
    ∀ x ∈ splitChar sep l, sep ∉ x := by
  induction l with
  | nil =>
    intro x hx
    simp [splitChar] at hx
    simp [hx]
  | cons c rest ih =>
    intro x hx
    simp only [splitChar] at hx
    by_cases h : c = sep
    · rw [if_pos h] at hx
      rcases List.mem_cons.mp hx with rfl | hx2
      · simp
      · exact ih x hx2
    · rw [if_neg h] at hx
      rcases hs : splitChar sep rest with _ | ⟨y, ys⟩
      · exact absurd hs (splitChar_ne_nil sep rest)
      · rw [hs] at hx
        rcases List.mem_cons.mp hx with rfl | hx2
        · have hy : sep ∉ y := ih y (by rw [hs]; exact List.mem_cons_self y ys)
          simp only [List.mem_cons, not_or]
          exact ⟨fun he => h he.symm, hy⟩
        · exact ih x (by rw [hs]; exact List.mem_cons_of_mem y hx2)

theorem joinNL_splitChar (l : List Char) : joinNL (splitChar '\n' l) = l := by
  induction l with
  | nil => rfl
  | cons c rest ih =>
    simp only [splitChar]
    by_cases h : c = '\n'
    · rw [if_pos h, joinNL_cons [] _ (splitChar_ne_nil _ _)]
      simp [ih, h]
    · rw [if_neg h]
      rcases hs : splitChar '\n' rest with _ | ⟨y, ys⟩
      · exact absurd hs (splitChar_ne_nil _ _)
      · rw [hs] at ih
        cases ys with
        | nil =>
          have : joinNL [y] = y := rfl
          rw [this] at ih
          show joinNL [c :: y] = c :: rest
          show c :: y = c :: rest
          rw [ih]
        | cons z zs =>
          rw [joinNL_cons (c :: y) (z :: zs) (by simp), ← ih,
            joinNL_cons y (z :: zs) (by simp)]
          rfl

theorem splitChar_of_not_mem (sep : Char) (l : List Char) (h : sep ∉ l) :
    splitChar sep l = [l] := by
  induction l with
  | nil => rfl
  | cons c rest ih =>
    have hc : ¬ c = sep := fun he => h (by simp [he])
    have hr : sep ∉ rest := fun hm => h (List.mem_cons_of_mem c hm)
    simp only [splitChar, if_neg hc, ih hr]

theorem splitChar_append_sep (sep : Char) (x rest : List Char) (h : sep ∉ x) :
    splitChar sep (x ++ sep :: rest) = x :: splitChar sep rest := by
  induction x with
  | nil => simp [splitChar]
  | cons c cx ih =>
    have hc : ¬ c = sep := fun he => h (by simp [he])
    have hx : sep ∉ cx := fun hm => h (List.mem_cons_of_mem c hm)
    simp only [List.cons_append, splitChar, if_neg hc, List.append_eq, ih hx]

theorem splitChar_joinNL (ls : List (List Char)) (hne : ls ≠ [])
    (h : ∀ x ∈ ls, '\n' ∉ x) : splitChar '\n' (joinNL ls) = ls := by
  induction ls with
  | nil => exact absurd rfl hne
  | cons x xs ih =>
    cases xs with
    | nil =>
      show splitChar '\n' (joinNL [x]) = [x]
      have : joinNL [x] = x := rfl
      rw [this]
      exact splitChar_of_not_mem '\n' x (h x (List.mem_cons_self x []))
    | cons y ys =>
      rw [joinNL_cons x (y :: ys) (by simp),
        splitChar_append_sep '\n' x (joinNL (y :: ys)) (h x (List.mem_cons_self _ _)),
        ih (by simp) (fun z hz => h z (List.mem_cons_of_mem x hz))]

theorem chunkCore_ne_nil (m : Nat) (lines : List (List Char)) :
    ∀ current count, current ≠ [] → chunkCore m lines current count ≠ [] := by
  induction lines with
  | nil =>
    intro current count h
    simp [chunkCore, h]
  | cons line rest ih =>
    intro current count h
    simp only [chunkCore]
    split
    · simp
    · exact ih _ _ (by simp)

theorem chunkCore_flatten (m : Nat) (lines : List (List Char)) :
    ∀ current count,
    (∀ x ∈ current, '\n' ∉ x) → (∀ x ∈ lines, '\n' ∉ x) →
    ((chunkCore m lines current count).map (splitChar '\n')).flatten = current ++ lines := by
  induction lines with
  | nil =>
    intro current count hc _
    by_cases h : current = []
    · simp [chunkCore, h]
    · simp only [chunkCore, if_neg h, List.map_cons, List.map_nil, List.flatten_cons,
        List.flatten_nil, List.append_nil]
      rw [splitChar_joinNL current h hc]
  | cons line rest ih =>
    intro current count hc hl
    have hline : '\n' ∉ line := hl line (List.mem_cons_self _ _)
    have hl' : ∀ x ∈ rest, '\n' ∉ x := fun x hx => hl x (List.mem_cons_of_mem _ hx)
    simp only [chunkCore]
    split
    · next hcond =>
      rw [List.map_cons, List.flatten_cons, splitChar_joinNL current hcond.2 hc,
        ih [line] _ (by simpa using hline) hl']
      simp
    · next hcond =>
      rw [ih (current ++ [line]) _ ?_ hl']
      · simp
      · intro x hx
        rcases List.mem_append.mp hx with h1 | h1
        · exact hc x h1
        · simp only [List.mem_singleton] at h1
          subst h1
          exact hline

theorem chunkCore_join (m : Nat) (lines : List (List Char)) :
    ∀ current count, joinNL (chunkCore m lines current count) = joinNL (current ++ lines) := by
  induction lines with
  | nil =>
    intro current count
    by_cases h : current = []
    · simp [chunkCore, h, joinNL]
    · simp only [chunkCore, if_neg h, List.append_nil]
      rfl
  | cons line rest ih =>
    intro current count
    simp only [chunkCore]
    split
    · next hcond =>
      rw [joinNL_cons _ _ (chunkCore_ne_nil m rest [line] _ (by simp)), ih [line],
        joinNL_append current (line :: rest) hcond.2 (by simp)]
      rfl
    · next hcond =>
      rw [ih (current ++ [line]), List.append_assoc]
      rfl

/-! ### Claim C2: chunking round-trip -/

/-- Claim C2, counterexample: `chunk_text` first normalizes CRLF to LF, so
for the input `"a\r\nb"` the newline-joined concatenation of the chunks is
`"a\nb"`, not the original text. -/
theorem claim_C2_counterexample :
    chunk_text "a\r\nb" 8000 = ["a\nb"] ∧
      joinNL ((chunk_text "a\r\nb" 8000).map String.data) ≠ "a\r\nb".data := by
  decide

/-- Claim C2 as amended: for every input text, no line is ever split across
two chunks and every line appears exactly once, in order (the chunks'
line lists flatten to the line list of the CRLF-normalized input), and
joining all chunks with a newline reproduces the input text with `\r\n`
normalized to `\n` (hence the text itself whenever it contains no CRLF). -/
theorem claim_C2_chunk_roundtrip (text : String) (max_chars : Nat) :
    ((chunk_text text max_chars).map (fun c => splitChar '\n' c.data)).flatten =
      splitChar '\n' (crlfToLf text.data) ∧
    joinNL ((chunk_text text max_chars).map String.data) = crlfToLf text.data := by
  constructor
  · unfold chunk_text
    rw [List.map_map]
    have he : ((fun c : String => splitChar '\n' c.data) ∘ String.mk) = splitChar '\n' := rfl
    rw [he]
    have h := chunkCore_flatten max_chars (splitChar '\n' (crlfToLf text.data)) [] 0
      (by simp) (splitChar_not_mem '\n' _)
    simpa using h
  · unfold chunk_text
    rw [List.map_map]
    have he : (String.data ∘ String.mk) = id := rfl
    rw [he, List.map_id, chunkCore_join]
    simpa using joinNL_splitChar (crlfToLf text.data)

/-! ### Claim C3: chunk size bound -/

/-- Claim C3, counterexample: a single line longer than the budget is
emitted whole, so `chunk_text "aaaaaa" 5` contains a 6-character chunk. -/
theorem claim_C3_counterexample :
    chunk_text "aaaaaa" 5 = ["aaaaaa"] ∧
      ¬ (∀ c ∈ chunk_text "aaaaaa" 5, c.length ≤ 5) := by
  decide

theorem chunkCore_length (m : Nat) (lines : List (List Char)) :
    ∀ current count,
    (∀ l ∈ lines, l.length ≤ m) →
    (current = [] → count = 0) →
    (current ≠ [] → (joinNL current).length ≤ m ∧ count = (joinNL current).length + 1) →
    ∀ c ∈ chunkCore m lines current count, c.length ≤ m := by
  induction lines with
  | nil =>
    intro current count _ _ hinv c hcmem
    by_cases h : current = []
    · simp [chunkCore, h] at hcmem
    · simp only [chunkCore, if_neg h, List.mem_singleton] at hcmem
      subst hcmem
      exact (hinv h).1
  | cons line rest ih =>
    intro current count hl h0 hinv c hcmem
    have hline : line.length ≤ m := hl line (List.mem_cons_self _ _)
    have hl' : ∀ l ∈ rest, l.length ≤ m := fun l hx => hl l (List.mem_cons_of_mem _ hx)
    simp only [chunkCore] at hcmem
    split at hcmem
    · next hcond =>
      rcases List.mem_cons.mp hcmem with rfl | hmem
      · exact (hinv hcond.2).1
      · refine ih [line] _ hl' (by simp) ?_ c hmem
        intro _
        constructor
        · show line.length ≤ m
          exact hline
        · rfl
    · next hcond =>
      by_cases h : current = []
      · subst h
        rw [h0 rfl] at hcmem
        refine ih [line] _ hl' (by simp) ?_ c (by simpa using hcmem)
        intro _
        constructor
        · show line.length ≤ m
          exact hline
        · rfl
      · obtain ⟨hlen, hcount⟩ := hinv h
        have hle : count + line.length + 1 ≤ m := by
          rcases Nat.lt_or_ge m (count + line.length + 1) with hlt | hge
          · exact absurd ⟨hlt, h⟩ hcond
          · exact hge
        have hjoin : joinNL (current ++ [line]) = joinNL current ++ '\n' :: line := by
          rw [joinNL_append current [line] h (by simp)]
          rfl
        refine ih (current ++ [line]) _ hl' (by simp) ?_ c hcmem
        intro _
        constructor
        · rw [hjoin]
          simp only [List.length_append, List.length_cons]
          omega
        · rw [hjoin]
          simp only [List.length_append, List.length_cons]
          omega

/-- Claim C3 as amended: every chunk produced by `chunk_text` has length at
most `max_chars` provided every line of the (CRLF-normalized) input text
has length at most `max_chars`; a longer single line is emitted as an
oversized chunk of its own. -/
theorem claim_C3_chunk_size (text : String) (max_chars : Nat)
    (h : ∀ l ∈ splitChar '\n' (crlfToLf text.data), l.length ≤ max_chars) :
    ∀ c ∈ chunk_text text max_chars, c.length ≤ max_chars := by
  intro c hc
  unfold chunk_text at hc
  rcases List.mem_map.mp hc with ⟨l, hl, rfl⟩
  have hb := chunkCore_length max_chars _ [] 0 h (fun _ => rfl) (fun hne => absurd rfl hne) l hl
  simpa [String.length] using hb

/-- Claim C3 witness: on `"ab\ncd"` with budget 5 every line is short
enough, and indeed every chunk respects the bound. -/
theorem claim_C3_chunk_size_witness :
    (∀ l ∈ splitChar '\n' (crlfToLf "ab\ncd".data), l.length ≤ 5) ∧
      ∀ c ∈ chunk_text "ab\ncd" 5, c.length ≤ 5 :=
  ⟨by decide, claim_C3_chunk_size "ab\ncd" 5 (by decide)⟩

/-! ### Digit-string lemmas for the timestamp shape claims -/

theorem data_mk (l : List Char) : (String.mk l).data = l := rfl

/-- Decision of the regex `^\d\d$` on a string. -/
def isTwoDigits (s : String) : Bool :=
  match s.data with
  | [a, b] => a.isDigit && b.isDigit
  | _ => false

/-- Decision of the regex `^\d\d\d$` on a string. -/
def isThreeDigits (s : String) : Bool :=
  match s.data with
  | [a, b, c] => a.isDigit && b.isDigit && c.isDigit
  | _ => false

/-- Decision of the regex `^\d\d:\d\d:\d\d<sep>\d\d\d$` on a string, the
shape stated by the spec for both timestamp formatters. -/
def tsShape (sep : Char) (s : String) : Bool :=
  match s.data with
  | [a1, a2, c1, b1, b2, c2, d1, d2, c3, e1, e2, e3] =>
    a1.isDigit && a2.isDigit && (c1 == ':') && b1.isDigit && b2.isDigit && (c2 == ':') &&
      d1.isDigit && d2.isDigit && (c3 == sep) && e1.isDigit && e2.isDigit && e3.isDigit
  | _ => false

theorem digitChar_isDigit : ∀ n, n < 10 → (Nat.digitChar n).isDigit = true := by
  decide

theorem toDigitsCore_digits : ∀ (fuel n : Nat) (acc : List Char),
    (∀ c ∈ acc, c.isDigit = true) → ∀ c ∈ Nat.toDigitsCore 10 fuel n acc, c.isDigit = true := by
  intro fuel
  induction fuel with
  | zero =>
    intro n acc hacc c hc
    simp only [Nat.toDigitsCore] at hc
    exact hacc c hc
  | succ fuel ih =>
    intro n acc hacc c hc
    have hd : (Nat.digitChar (n % 10)).isDigit = true :=
      digitChar_isDigit _ (Nat.mod_lt n (by norm_num))
    simp only [Nat.toDigitsCore] at hc
    split at hc
    · rcases List.mem_cons.mp hc with rfl | hmem
      · exact hd
      · exact hacc c hmem
    · refine ih (n / 10) _ ?_ c hc
      intro x hx
      rcases List.mem_cons.mp hx with rfl | hxm
      · exact hd
      · exact hacc x hxm

theorem repr_digits (n : Nat) : ∀ c ∈ (Nat.repr n).data, c.isDigit = true := by
  intro c hc
  have he : (Nat.repr n).data = Nat.toDigits 10 n := rfl
  rw [he] at hc
  exact toDigitsCore_digits (n + 1) n [] (by simp) c hc

theorem zeroPad_digits (w n : Nat) : ∀ c ∈ (zeroPad w n).data, c.isDigit = true := by
  intro c hc
  simp only [zeroPad, String.data_append, data_mk] at hc
  rcases List.mem_append.mp hc with h1 | h1
  · have h0 : c = '0' := List.eq_of_mem_replicate h1
    subst h0
    decide
  · exact repr_digits n c h1

set_option maxRecDepth 4000 in
theorem zeroPad2_twoDigits : ∀ n, n < 100 → isTwoDigits (zeroPad 2 n) = true := by
  decide

set_option maxRecDepth 40000 in
set_option maxHeartbeats 1000000 in
theorem zeroPad3_threeDigits : ∀ n, n < 1000 → isThreeDigits (zeroPad 3 n) = true := by
  decide

theorem isTwoDigits_spec (s : String) (h : isTwoDigits s = true) :
    ∃ a b, s.data = [a, b] ∧ a.isDigit = true ∧ b.isDigit = true := by
  unfold isTwoDigits at h
  split at h
  · next a b heq =>
    exact ⟨a, b, heq, by simpa using h⟩
  · exact absurd h (by simp)

theorem isThreeDigits_spec (s : String) (h : isThreeDigits s = true) :
    ∃ a b c, s.data = [a, b, c] ∧ a.isDigit = true ∧ b.isDigit = true ∧ c.isDigit = true := by
  unfold isThreeDigits at h
  split at h
  · next a b c heq =>
    refine ⟨a, b, c, heq, ?_⟩
    simpa [Bool.and_assoc] using h
  · exact absurd h (by simp)

theorem tsShape_of_parts (sc : Char) (sep : String) (hsep : sep.data = [sc])
    (x y z w : String) (hx : isTwoDigits x = true) (hy : isTwoDigits y = true)
    (hz : isTwoDigits z = true) (hw : isThreeDigits w = true) :
    tsShape sc (x ++ ":" ++ y ++ ":" ++ z ++ sep ++ w) = true := by
  obtain ⟨a1, a2, hxd, ha1, ha2⟩ := isTwoDigits_spec x hx
  obtain ⟨b1, b2, hyd, hb1, hb2⟩ := isTwoDigits_spec y hy
  obtain ⟨d1, d2, hzd, hd1, hd2⟩ := isTwoDigits_spec z hz
  obtain ⟨e1, e2, e3, hwd, he1, he2, he3⟩ := isThreeDigits_spec w hw
  unfold tsShape
  simp only [String.data_append, hxd, hyd, hzd, hwd, hsep]
  simp [ha1, ha2, hb1, hb2, hd1, hd2, he1, he2, he3]

/-! ### Claim C5: timestamp shape -/

/-- Claim C5, counterexample: at 100 hours (`t = 360000` seconds, a
non-negative input) the hour field of `ts_srt` has three digits, so the
output does not match `^\d{2}:\d{2}:\d{2},\d{3}$`. -/
theorem claim_C5_counterexample :
    (0 : ℚ) ≤ 360000 ∧ ts_srt 360000 = "100:00:00,000" ∧
      tsShape ',' (ts_srt 360000) = false := by
  have h1 : (⌊(360000 : ℚ)⌋) = ((360000 : ℕ) : ℤ) := by
    rw [Int.floor_eq_iff]; norm_num
  have h2 : (⌊((360000 : ℚ) - ((360000 : ℕ) : ℚ)) * 1000⌋) = ((0 : ℕ) : ℤ) := by
    rw [Int.floor_eq_iff]; norm_num
  have he : ts_srt 360000 = "100:00:00,000" := by
    rw [ts_srt_eval 360000 360000 0 (by norm_num) h1 h2]
    rfl
  refine ⟨by norm_num, he, ?_⟩
  rw [he]
  decide

/-- Claim C5 as amended: for every non-negative second count below 360000
(100 hours) both formatters produce the two-digit-hour shape
`^\d{2}:\d{2}:\d{2}[,.]\d{3}$`; at and above 100 hours the hour field
widens beyond two digits. -/
theorem claim_C5_timestamp_shape (t : ℚ) (h0 : 0 ≤ t) (h1 : t < 360000) :
    tsShape ',' (ts_srt t) = true ∧ tsShape '.' (ts_vtt t) = true := by
  have hmax : max 0 t = t := max_eq_right h0
  have hfl : (0 : ℤ) ≤ ⌊t⌋ := Int.floor_nonneg.mpr h0
  have hflt : ⌊t⌋ < 360000 := by
    rw [Int.floor_lt]
    exact_mod_cast h1
  have hcast : (((⌊t⌋).toNat : ℕ) : ℚ) = ((⌊t⌋ : ℤ) : ℚ) := by
    exact_mod_cast Int.toNat_of_nonneg hfl
  have hfr0 : 0 ≤ t - (((⌊t⌋).toNat : ℕ) : ℚ) := by
    rw [hcast]
    exact sub_nonneg.mpr (Int.floor_le t)
  have hfr1 : t - (((⌊t⌋).toNat : ℕ) : ℚ) < 1 := by
    rw [hcast]
    have := Int.lt_floor_add_one t
    linarith
  have hmsle : ⌊(t - (((⌊t⌋).toNat : ℕ) : ℚ)) * 1000⌋ < 1000 := by
    rw [Int.floor_lt]
    push_cast
    nlinarith
  have hms0 : (0 : ℤ) ≤ ⌊(t - (((⌊t⌋).toNat : ℕ) : ℚ)) * 1000⌋ :=
    Int.floor_nonneg.mpr (by positivity)
  constructor
  · simp only [ts_srt]
    rw [hmax]
    exact tsShape_of_parts ',' "," rfl _ _ _ _
      (zeroPad2_twoDigits _ (by omega)) (zeroPad2_twoDigits _ (by omega))
      (zeroPad2_twoDigits _ (by omega)) (zeroPad3_threeDigits _ (by omega))
  · simp only [ts_vtt]
    rw [hmax]
    exact tsShape_of_parts '.' "." rfl _ _ _ _
      (zeroPad2_twoDigits _ (by omega)) (zeroPad2_twoDigits _ (by omega))
      (zeroPad2_twoDigits _ (by omega)) (zeroPad3_threeDigits _ (by omega))

/-- Claim C5 witness: the bounds hold at `t = 4521/2` seconds and both
formatter outputs match the shape there. -/
theorem claim_C5_timestamp_shape_witness :
    ((0 : ℚ) ≤ 4521/2 ∧ (4521/2 : ℚ) < 360000) ∧
      tsShape ',' (ts_srt (4521/2)) = true ∧ tsShape '.' (ts_vtt (4521/2)) = true :=
  ⟨⟨by norm_num, by norm_num⟩,
    claim_C5_timestamp_shape (4521/2) (by norm_num) (by norm_num)⟩

/-! ### Claim C7: SRT/VTT formatter agreement -/

/-- Character-wise replacement of `','` by `'.'`, the relation the spec
states between the two formatters. -/
def commaToDot (c : Char) : Char :=
  if c = ',' then '.' else c

/-- String-level replacement of every comma by a dot. -/
def replaceCommaDot (s : String) : String :=
  String.mk (s.data.map commaToDot)

theorem map_commaToDot_of_digits (l : List Char) (h : ∀ c ∈ l, c.isDigit = true) :
    l.map commaToDot = l := by
  induction l with
  | nil => rfl
  | cons c cs ih =>
    have hc : c.isDigit = true := h c (List.mem_cons_self _ _)
    have he : commaToDot c = c := by
      unfold commaToDot
      rw [if_neg]
      intro hcc
      subst hcc
      exact absurd hc (by decide)
    rw [List.map_cons, he, ih (fun x hx => h x (List.mem_cons_of_mem _ hx))]

/-- Claim C7: for every second count the two formatters agree on all four
fields and differ only in the millisecond separator — `ts_vtt` equals
`ts_srt` with every comma replaced by a dot. -/
theorem claim_C7_formatter_agreement (t : ℚ) :
    ts_vtt t = replaceCommaDot (ts_srt t) := by
  simp only [ts_srt, ts_vtt, replaceCommaDot]
  apply String.ext
  simp only [data_mk, String.data_append, List.map_append]
  rw [map_commaToDot_of_digits _ (zeroPad_digits 2 _),
    map_commaToDot_of_digits _ (zeroPad_digits 2 _),
    map_commaToDot_of_digits _ (zeroPad_digits 2 _),
    map_commaToDot_of_digits _ (zeroPad_digits 3 _)]
  rfl

/-! ### Claim C1: output routing by language pair -/

/-- Claim C1: per processed input (present file, successful translation),
the router writes exactly the claimed files. If `out_lang = in_lang`, the
text file carries the `[<in_lang>]` suffix, SRT/VTT carry no suffix, and no
translation step runs. If `out_lang = "en" ≠ in_lang`, all requested outputs
carry `[eng]` and no second step runs. Otherwise the requested step-1
outputs carry `[eng]` and exactly one additional `[<out_lang>]` text-only
file is written — never SRT/VTT in the target language. -/
theorem claim_C1_output_routing (in_lang out_lang : String) (targets : List String)
    (stem tr : String) :
    (out_lang = in_lang →
      processFile in_lang out_lang targets ⟨stem, true, Except.ok tr⟩ =
        (if "txt" ∈ targets then
          [Ev.write (sanitize_folder_name stem ++ " [" ++ in_lang ++ "].txt") "txt"] else []) ++
        (if "srt" ∈ targets then
          [Ev.write (sanitize_folder_name stem ++ ".srt") "srt"] else []) ++
        (if "vtt" ∈ targets then
          [Ev.write (sanitize_folder_name stem ++ ".vtt") "vtt"] else [])) ∧
    (out_lang = "en" → out_lang ≠ in_lang →
      processFile in_lang out_lang targets ⟨stem, true, Except.ok tr⟩ =
        (if "txt" ∈ targets then
          [Ev.write (sanitize_folder_name stem ++ " [eng].txt") "txt"] else []) ++
        (if "srt" ∈ targets then
          [Ev.write (sanitize_folder_name stem ++ " [eng].srt") "srt"] else []) ++
        (if "vtt" ∈ targets then
          [Ev.write (sanitize_folder_name stem ++ " [eng].vtt") "vtt"] else [])) ∧
    (out_lang ≠ "en" → out_lang ≠ in_lang →
      processFile in_lang out_lang targets ⟨stem, true, Except.ok tr⟩ =
        ((if "txt" ∈ targets then
          [Ev.write (sanitize_folder_name stem ++ " [eng].txt") "txt"] else []) ++
         (if "srt" ∈ targets then
          [Ev.write (sanitize_folder_name stem ++ " [eng].srt") "srt"] else []) ++
         (if "vtt" ∈ targets then
          [Ev.write (sanitize_folder_name stem ++ " [eng].vtt") "vtt"] else [])) ++
        [Ev.write (sanitize_folder_name stem ++ " [" ++ out_lang ++ "].txt") "txt"]) := by
  refine ⟨?_, ?_, ?_⟩
  · intro h
    simp [processFile, h]
  · intro h hne
    subst h
    simp [processFile, hne]
  · intro hne1 hne2
    simp [processFile, hne1, hne2]

/-- Claim C1 witness: the three language configurations of the spec's
router example, fully evaluated. -/
theorem claim_C1_output_routing_witness :
    processFile "it" "it" ["txt", "srt", "vtt"] ⟨"x", true, Except.ok "t"⟩ =
      [Ev.write "x [it].txt" "txt", Ev.write "x.srt" "srt", Ev.write "x.vtt" "vtt"] ∧
    processFile "it" "en" ["txt", "srt", "vtt"] ⟨"x", true, Except.ok "t"⟩ =
      [Ev.write "x [eng].txt" "txt", Ev.write "x [eng].srt" "srt", Ev.write "x [eng].vtt" "vtt"] ∧
    processFile "it" "es" ["txt", "srt", "vtt"] ⟨"x", true, Except.ok "t"⟩ =
      [Ev.write "x [eng].txt" "txt", Ev.write "x [eng].srt" "srt", Ev.write "x [eng].vtt" "vtt",
        Ev.write "x [es].txt" "txt"] :=
  ⟨((claim_C1_output_routing "it" "it" ["txt", "srt", "vtt"] "x" "t").1 rfl).trans (by decide),
   ((claim_C1_output_routing "it" "en" ["txt", "srt", "vtt"] "x" "t").2.1 rfl
      (by decide)).trans (by decide),
   ((claim_C1_output_routing "it" "es" ["txt", "srt", "vtt"] "x" "t").2.2 (by decide)
      (by decide)).trans (by decide)⟩

/-! ### Claim C8: translation-failure tolerance -/

theorem mem_ite_singleton {c : Prop} [Decidable c] {x v : Ev}
    (h : x ∈ if c then [v] else []) : x = v := by
  split at h
  · simpa using h
  · simp at h

/-- Claim C8: when the step-2 translation raises (the `Except.error` case)
for a file, the error is caught and logged as an event, the
`[<out_lang>]` text file is not written, the step-1 `[eng]` writes remain,
the surrounding files are still processed, and the run ends with the
`[DONE]` event. -/
theorem claim_C8_translation_failure (in_lang out_lang : String) (targets : List String)
    (stem e : String) (before after : List InputFile)
    (h1 : out_lang ≠ "en") (h2 : out_lang ≠ in_lang) (h3 : out_lang ∈ SUPPORTED_LANGS) :
    processFile in_lang out_lang targets ⟨stem, true, Except.error e⟩ =
      ((if "txt" ∈ targets then
        [Ev.write (sanitize_folder_name stem ++ " [eng].txt") "txt"] else []) ++
       (if "srt" ∈ targets then
        [Ev.write (sanitize_folder_name stem ++ " [eng].srt") "srt"] else []) ++
       (if "vtt" ∈ targets then
        [Ev.write (sanitize_folder_name stem ++ " [eng].vtt") "vtt"] else [])) ++
      [Ev.errTranslate e] ∧
    Ev.write (sanitize_folder_name stem ++ " [" ++ out_lang ++ "].txt") "txt" ∉
      processFile in_lang out_lang targets ⟨stem, true, Except.error e⟩ ∧
    mainRun in_lang out_lang targets (before ++ ⟨stem, true, Except.error e⟩ :: after) =
      (before.map (processFile in_lang out_lang targets)).flatten ++
        (processFile in_lang out_lang targets ⟨stem, true, Except.error e⟩ ++
          ((after.map (processFile in_lang out_lang targets)).flatten ++ [Ev.done])) ∧
    (mainRun in_lang out_lang targets
        (before ++ ⟨stem, true, Except.error e⟩ :: after)).getLast? = some Ev.done := by
  have hlen : out_lang.length = 2 := by
    simp only [SUPPORTED_LANGS, List.mem_cons, List.not_mem_nil, or_false] at h3
    rcases h3 with rfl | rfl | rfl | rfl | rfl | rfl <;> rfl
  have hpf : processFile in_lang out_lang targets ⟨stem, true, Except.error e⟩ =
      ((if "txt" ∈ targets then
        [Ev.write (sanitize_folder_name stem ++ " [eng].txt") "txt"] else []) ++
       (if "srt" ∈ targets then
        [Ev.write (sanitize_folder_name stem ++ " [eng].srt") "srt"] else []) ++
       (if "vtt" ∈ targets then
        [Ev.write (sanitize_folder_name stem ++ " [eng].vtt") "vtt"] else [])) ++
      [Ev.errTranslate e] := by
    simp [processFile, h1, h2]
  refine ⟨hpf, ?_, ?_, ?_⟩
  · rw [hpf]
    intro hmem
    have hsuf : (" [" : String).length = 2 := rfl
    have heng : (" [eng].txt" : String).length = 10 := rfl
    have hdottxt : ("].txt" : String).length = 5 := rfl
    rcases List.mem_append.mp hmem with hm | hm
    · rcases List.mem_append.mp hm with hm2 | hm2
      · rcases List.mem_append.mp hm2 with hm3 | hm3
        · have hv := mem_ite_singleton hm3
          have hn : sanitize_folder_name stem ++ " [" ++ out_lang ++ "].txt" =
              sanitize_folder_name stem ++ " [eng].txt" := by
            injection hv
          have := congrArg String.length hn
          simp only [String.length_append, hsuf, heng, hdottxt, hlen] at this
          omega
        · have hv := mem_ite_singleton hm3
          injection hv with _ hfmt
          exact absurd hfmt (by decide)
      · have hv := mem_ite_singleton hm2
        injection hv with _ hfmt
        exact absurd hfmt (by decide)
    · simp at hm
  · simp [mainRun, List.map_append, List.flatten_append, List.append_assoc]
  · simp only [mainRun]
    rw [List.getLast?_concat]

/-- Claim C8 witness: a two-file run whose first file's translation raises;
the first file keeps its `[eng]` outputs, gets no `[es]` file, the second
file is fully processed, and the run ends with the `[DONE]` event. -/
theorem claim_C8_translation_failure_witness :
    processFile "it" "es" ["txt", "srt"] ⟨"x", true, Except.error "boom"⟩ =
      [Ev.write "x [eng].txt" "txt", Ev.write "x [eng].srt" "srt", Ev.errTranslate "boom"] ∧
    Ev.write "x [es].txt" "txt" ∉
      processFile "it" "es" ["txt", "srt"] ⟨"x", true, Except.error "boom"⟩ ∧
    mainRun "it" "es" ["txt", "srt"] [⟨"x", true, Except.error "boom"⟩, ⟨"y", true, Except.ok "t"⟩] =
      [Ev.write "x [eng].txt" "txt", Ev.write "x [eng].srt" "srt", Ev.errTranslate "boom",
        Ev.write "y [eng].txt" "txt", Ev.write "y [eng].srt" "srt", Ev.write "y [es].txt" "txt",
        Ev.done] ∧
    (mainRun "it" "es" ["txt", "srt"]
        [⟨"x", true, Except.error "boom"⟩, ⟨"y", true, Except.ok "t"⟩]).getLast? =
      some Ev.done := by
  have h := claim_C8_translation_failure "it" "es" ["txt", "srt"] "x" "boom"
    [] [⟨"y", true, Except.ok "t"⟩] (by decide) (by decide) (by decide)
  refine ⟨h.1.trans (by decide), ?_, ?_, ?_⟩
  · have h2 := h.2.1
    rw [show sanitize_folder_name "x" ++ " [" ++ "es" ++ "].txt" = "x [es].txt" from by decide] at h2
    exact h2
  · exact (h.2.2.1).trans (by decide)
  · exact h.2.2.2
